import Mathlib

/-!
Verification development for the graphql-client code generation core.

The Rust sources under verification are:
* `graphql_client_codegen/src/inputs.rs` (`GqlInput`: `require`,
  `contains_type_without_indirection`, `is_recursive_without_indirection`,
  `map_field`, `to_rust`),
* `graphql_client_codegen/src/operations.rs` (`Operation`, `variable_fields`,
  `compute_variable_requirements`, `expand_variables`, `From<&OperationDefinition>`),
* `graphql_client_codegen/src/generated_module.rs` (`GeneratedModule::to_token_stream`),
* `graphql_client_codegen/src/codegen_options.rs` (`CodegenMode`, options).

Collaborator code referenced by those files but not part of the sources here
(`field_type.rs`, `schema.rs`, `shared.rs`, `variables.rs`, `codegen.rs`,
`constants.rs`) is modelled from the specification; each such definition is
marked with a doc comment starting with `Modelled from the spec:`.

Machine-level details that cannot affect the verified properties are made
explicit: the `Cell<bool>` reachability marks of the schema become an explicit
list of marked type names threaded through the functions, the unordered
`HashMap` field tables become lists (with no-duplicate-name hypotheses where a
property needs key uniqueness), and the unbounded Rust recursion becomes
fuel-indexed recursion returning `none` when the fuel is exhausted, so that
divergence and termination of the original recursion are both expressible.
-/

/-- Deprecation status of a field (`deprecation.rs` collaborator; only the
shape is needed here). -/
inductive DeprecationStatus where
  | current : DeprecationStatus
  | deprecated (reason : Option String) : DeprecationStatus
deriving DecidableEq, Repr

/-- Modelled from the spec: the type reference model of the missing
`field_type.rs` (spec section 3 and 4.1): a GraphQL type reference is a named
leaf, an optional wrapper or a list wrapper.  The constructor names follow the
source (`Named`, `Optional`, `Vector`, as visible in the `inputs.rs` test). -/
inductive FieldType where
  | named (name : String) : FieldType
  | optional (inner : FieldType) : FieldType
  | vector (inner : FieldType) : FieldType
deriving DecidableEq, Repr

/-- Modelled from the spec: `FieldType::inner_name_str` unwraps any nesting of
optional/list wrappers and returns the leaf type name (spec section 4.1). -/
def FieldType.inner_name_str : FieldType → String
  | .named n => n
  | .optional inner => inner.inner_name_str
  | .vector inner => inner.inner_name_str

/-- Modelled from the spec: `FieldType::is_indirected` is true if the reference
is a list (at top level) or an optional wrapping a list; false for a bare named
type or an optional wrapping a bare named type (spec section 4.1). -/
def FieldType.is_indirected : FieldType → Bool
  | .named _ => false
  | .optional inner => inner.is_indirected
  | .vector _ => true

/-- Shape of an emitted target (Rust) type expression, as far as the claims
need it: named types, `Option<_>`, `Vec<_>` and `Box<_>` wrappers. -/
inductive RustType where
  | named (name : String) : RustType
  | option (inner : RustType) : RustType
  | vec (inner : RustType) : RustType
  | box (inner : RustType) : RustType
deriving DecidableEq, Repr

/-- Modelled from the spec: `FieldType::to_rust` maps a named leaf through the
scalar/enum/object naming context (abstracted into the `resolve` parameter),
`Optional` to an `Option` wrapper and `Vector` to a `Vec` wrapper
(spec section 4.1). -/
def FieldType.to_rust (resolve : String → String) : FieldType → RustType
  | .named n => .named (resolve n)
  | .optional inner => .option (inner.to_rust resolve)
  | .vector inner => .vec (inner.to_rust resolve)

/-- Source `GqlObjectField` (`objects.rs` shape as used by `inputs.rs`). -/
structure GqlObjectField where
  description : Option String
  name : String
  type_ : FieldType
  deprecation : DeprecationStatus
deriving DecidableEq, Repr

/-- Source `GqlInput` (`inputs.rs`).  The Rust `fields` table is a
`HashMap<&str, GqlObjectField>` keyed by the field name; it is modelled as the
list of its values.  The `is_required: Cell<bool>` mark is not stored here: the
reachability marks are modelled as an explicit list of marked names threaded
through `require_step` below. -/
structure GqlInput where
  description : Option String
  name : String
  fields : List GqlObjectField
deriving DecidableEq, Repr

/-- Schema model (the `schema.rs` collaborator): the table of input objects by
name and the optional root operation type names.  Only the inputs table takes
part in the verified claims. -/
structure Schema where
  inputs : List GqlInput
  query_type : Option String := none
  mutation_type : Option String := none
  subscription_type : Option String := none
deriving DecidableEq, Repr

/-- Lookup of an input object by name (the Rust `context.schema.inputs.get`). -/
def Schema.findInput (s : Schema) (name : String) : Option GqlInput :=
  s.inputs.find? (fun i => i.name == name)

/-- Names of a schema's input objects. -/
def Schema.inputNames (s : Schema) : List String :=
  s.inputs.map (fun i => i.name)

/-!
`GqlInput::contains_type_without_indirection` (inputs.rs lines 34-62) is the
recursion `self.fields.values().any(|field| ...)` which, on a non-indirected
field whose inner name resolves to an input object, returns true when that
input is the searched type and otherwise recurses into the other input's
fields.  The Rust recursion is embedded as a fuel-indexed depth-first
traversal: `pending` is the stack of fields still to be examined (the nested
`any` calls flattened in depth-first order: entering an input prepends its
fields), a `some true` from anywhere short-circuits exactly as the chained
`any` does, and exhausted fuel (`none`) corresponds to the Rust recursion
still running.  One fuel unit is consumed per examined field, so the original
recursion terminates on a given argument iff some fuel returns `some`.
-/
def contains_step : Nat → Schema → String → List GqlObjectField → Option Bool
  | 0, _, _, _ => none
  | _ + 1, _, _, [] => some false
  | n + 1, s, type_name, f :: fs =>
    if f.type_.is_indirected then
      contains_step n s type_name fs
    else
      match s.findInput f.type_.inner_name_str with
      | none => contains_step n s type_name fs
      | some input =>
        if input.name = type_name then some true
        else contains_step n s type_name (input.fields ++ fs)

/-- Source `GqlInput::contains_type_without_indirection`, fuel-indexed. -/
def GqlInput.contains_type_without_indirection
    (fuel : Nat) (s : Schema) (i : GqlInput) (type_name : String) : Option Bool :=
  contains_step fuel s type_name i.fields

/-- Source `GqlInput::is_recursive_without_indirection` (inputs.rs 64-66):
`self.contains_type_without_indirection(context, &self.name)`. -/
def GqlInput.is_recursive_without_indirection
    (fuel : Nat) (s : Schema) (i : GqlInput) : Option Bool :=
  i.contains_type_without_indirection fuel s i.name

/-- Modelled from the spec: `shared::keyword_replace` (missing `shared.rs`):
when the converted name collides with a reserved keyword of the target
language (the `kw` table), a disambiguating rename is applied (spec section
4.3; the source test shows `crate` becoming `crate_`). -/
def keyword_replace (kw : List String) (name : String) : String :=
  if name ∈ kw then name ++ "_" else name

/-- Modelled from the spec: `shared::field_rename_annotation` (missing
`shared.rs`): when the emitted name differs from the original wire-format
name, a serialization directive carrying the original name is attached
(spec section 4.3); otherwise nothing is attached. -/
def field_rename_directive (graphql_name rust_name : String) : Option String :=
  if graphql_name ≠ rust_name then some graphql_name else none

/-- The type expression computed for one field by `GqlInput::map_field`
(inputs.rs lines 75-98): if the field's inner type names an input object that
is recursive without indirection, the emitted type is boxed — for an optional
field the boxed inner type is wrapped back in the option, otherwise the whole
mapped type is boxed; non-recursive fields are mapped unchanged.  `none`
propagates divergence of the recursiveness check. -/
def map_field_ty (fuel : Nat) (s : Schema) (resolve : String → String)
    (f : GqlObjectField) : Option RustType :=
  let is_recursive :=
    match s.findInput f.type_.inner_name_str with
    | some input => input.is_recursive_without_indirection fuel s
    | none => some false
  match is_recursive with
  | none => none
  | some is_recursive =>
    some (if is_recursive then
      match f.type_ with
      | .optional inner => .option (.box (inner.to_rust resolve))
      | t => .box (t.to_rust resolve)
    else
      f.type_.to_rust resolve)

/-- One emitted struct field: the optional serialization rename directive, the
`skip_serializing_if` marker added for optional fields, the rust-safe field
name and the mapped type. -/
structure EmittedField where
  rename : Option String
  skip_serde : Bool
  name : String
  ty : RustType
deriving DecidableEq, Repr

/-- Right-hand side of one constructor field assignment in the generated
`new`: either the absent default (`None`) or the constructor parameter of the
same name. -/
inductive AssignVal where
  | noneDefault : AssignVal
  | var (name : String) : AssignVal
deriving DecidableEq, Repr

/-- Source `GqlInput::map_field` (inputs.rs lines 68-119): computes the mapped
type (with recursion boxing), the rust-safe field name with its rename
directive, and the contributions of the field to the constructor — optional
fields contribute no constructor parameter and an absent-value assignment,
all other fields contribute a parameter and a pass-through assignment.  The
`schema.require` side effect of the source is pure marking and does not feed
back into the emitted tokens; it is modelled separately by `require_step`. -/
def map_field (fuel : Nat) (s : Schema) (resolve : String → String)
    (snake : String → String) (kw : List String) (f : GqlObjectField) :
    Option (EmittedField × Option (String × RustType) × (String × AssignVal)) :=
  (map_field_ty fuel s resolve f).map fun ty =>
    let rust_safe_field_name := keyword_replace kw (snake f.name)
    let rename := field_rename_directive f.name rust_safe_field_name
    match f.type_ with
    | .optional _ =>
      (⟨rename, true, rust_safe_field_name, ty⟩, none,
        (rust_safe_field_name, AssignVal.noneDefault))
    | _ =>
      (⟨rename, false, rust_safe_field_name, ty⟩,
        some (rust_safe_field_name, ty),
        (rust_safe_field_name, AssignVal.var rust_safe_field_name))

/-!
`Schema::require` / `GqlInput::require` (inputs.rs lines 24-32 and the
`schema.rs` collaborator).  The source `GqlInput::require` returns immediately
when the input's mark is set, otherwise sets the mark and calls
`schema.require` on every field's innermost type name; `Schema::require` is
modelled from the spec (section 4.2): it looks the name up, is a no-op for a
name that is not an input object, and otherwise delegates to
`GqlInput::require`.  The embedding carries the set of marked names (`req`)
explicitly and flattens the depth-first recursion into a `pending` stack of
names on which `schema.require` is still to be run: entering an unmarked
input prepends its fields' innermost names, exactly the recursive calls of the
source in order.  Fuel is consumed once per processed name; `none` means the
fuel ran out. -/
def require_step : Nat → Schema → List String → List String → Option (List String)
  | 0, _, _, _ => none
  | _ + 1, _, req, [] => some req
  | n + 1, s, req, name :: rest =>
    match s.findInput name with
    | none => require_step n s req rest
    | some input =>
      if name ∈ req then require_step n s req rest
      else
        require_step n s (name :: req)
          ((input.fields.map (fun f => f.type_.inner_name_str)) ++ rest)

/-- Fuel units chargeable to one still-unmarked input object: one for marking
it plus one per field pushed on the pending stack. -/
def inputWeight (i : GqlInput) : Nat := i.fields.length + 1

/-- Total fuel chargeable to the inputs not yet marked in `req`. -/
def unmarkedWeight (s : Schema) (req : List String) : Nat :=
  ((s.inputs.filter (fun i => decide (i.name ∉ req))).map inputWeight).sum

/-- A fuel amount sufficient for `require_step` (shown in
`require_step_total`): one unit per pending name plus the weight of every
unmarked input plus one for the final empty-stack step. -/
def requireFuel (s : Schema) (req pending : List String) : Nat :=
  pending.length + unmarkedWeight s req + 1

/-- Source `Schema::require` run to completion: one `require(name)` call,
with the marked-name set as explicit state.  By `require_step_total` the
fallback branch is never taken on a schema with distinct input names. -/
def Schema.require (s : Schema) (req : List String) (name : String) : List String :=
  (require_step (requireFuel s req [name]) s req [name]).getD req

/-- A sequence of `require` calls against one schema, as performed during a
generation run (`compute_variable_requirements`, `map_field`, ...). -/
def Schema.requireMany (s : Schema) (names : List String) (req : List String) :
    List String :=
  names.foldl (fun r n => s.require r n) req

/-- One step of the input-object reference graph: `u` names an input object
one of whose fields has innermost name `v`, and `v` names an input object as
well (a reference that does not cross a non-input type). -/
def inputSucc (s : Schema) (u v : String) : Prop :=
  ∃ i, s.findInput u = some i ∧
    (∃ f ∈ i.fields, f.type_.inner_name_str = v) ∧ (s.findInput v).isSome

/-- Reachability along input-object references, as in the closure claim. -/
def inputReach (s : Schema) (u v : String) : Prop :=
  Relation.ReflTransGen (inputSucc s) u v

/-- A marked-name set is closed when every marked input's input successors are
marked as well. -/
def ReqClosed (s : Schema) (req : List String) : Prop :=
  ∀ u ∈ req, ∀ v, inputSucc s u v → v ∈ req

/-- Opaque response shape: the selection-set-to-response-tree algorithm is an
external collaborator (spec section 1, out of scope), so a selection is a
token with no internal structure here. -/
structure Selection where
  tag : String
deriving DecidableEq, Repr

/-- Modelled from the spec: a `variables.rs` `Variable` (spec section 3):
name, type reference, optional literal default value (the literal payload is
kept opaque as its parsed text). -/
structure Variable where
  name : String
  ty : FieldType
  default : Option String
deriving DecidableEq, Repr

/-- One generated default-value constructor function for a variable. -/
structure DefaultCtor where
  var_name : String
  value : String
deriving DecidableEq, Repr

/-- Modelled from the spec: `Variable::generate_default_value_constructor`
(missing `variables.rs`): for every variable that declares a literal default
value, a generated constructor producing that variable's value from its
literal default; nothing is generated for a variable without default
(spec section 4.4). -/
def Variable.generate_default_value_constructor (v : Variable) : Option DefaultCtor :=
  v.default.map (fun d => ⟨v.name, d⟩)

/-- Source `OperationType` (operations.rs lines 11-16). -/
inductive OperationType where
  | query : OperationType
  | mutation : OperationType
  | subscription : OperationType
deriving DecidableEq, Repr

/-- Source `Operation` (operations.rs lines 18-24). -/
structure Operation where
  name : String
  operation_type : OperationType
  variables' : List Variable
  selection : Selection
deriving DecidableEq, Repr

/-- Source `Operation::variable_fields` (operations.rs lines 46-64): one
emitted field per declared variable, with the same rust-safe naming, rename
directive and optional-field serde skip as input-object fields. -/
def Operation.variable_fields (resolve : String → String) (snake : String → String)
    (kw : List String) (op : Operation) : List EmittedField :=
  op.variables'.map fun v =>
    let rust_safe_field_name := keyword_replace kw (snake v.name)
    { rename := field_rename_directive v.name rust_safe_field_name
      skip_serde := match v.ty with | .optional _ => true | _ => false
      name := rust_safe_field_name
      ty := v.ty.to_rust resolve }

/-- Source `Operation::compute_variable_requirements` (operations.rs lines
67-71): `schema.require` on every variable's innermost type name. -/
def Operation.compute_variable_requirements (s : Schema) (op : Operation)
    (req : List String) : List String :=
  s.requireMany (op.variables'.map (fun v => v.ty.inner_name_str)) req

/-- Source `Operation::expand_variables` (operations.rs lines 74-90): with
zero declared variables the result carries no fields and no constructors;
otherwise one field per variable (`variable_fields`) and the per-variable
default-value constructors (`none` standing for the empty token stream the
source produces for a variable without default). -/
def Operation.expand_variables (resolve : String → String) (snake : String → String)
    (kw : List String) (derives : List String) (op : Operation) :
    List String × List EmittedField × List (Option DefaultCtor) :=
  if op.variables'.isEmpty then (derives, [], [])
  else
    (derives, op.variable_fields resolve snake kw,
      op.variables'.map (fun v => v.generate_default_value_constructor))

/-- Source `graphql_parser::query::OperationDefinition` as consumed by
`From<&OperationDefinition> for Operation` (operations.rs lines 93-117): the
three keyword forms carry an optional name, variable definitions and a
selection set; the fourth form is a bare selection set at the document root. -/
inductive OperationDefinition where
  | query (name : Option String) (variable_definitions : List Variable)
      (selection_set : Selection) : OperationDefinition
  | mutation (name : Option String) (variable_definitions : List Variable)
      (selection_set : Selection) : OperationDefinition
  | subscription (name : Option String) (variable_definitions : List Variable)
      (selection_set : Selection) : OperationDefinition
  | selectionSet (selection_set : Selection) : OperationDefinition
deriving DecidableEq, Repr

/-- Modelled from the spec: the `SELECTION_SET_AT_ROOT` fatal-error constant of
the missing `constants.rs` (spec section 4.4: a bare selection set with no
operation keyword at the document root is a fatal error). -/
def SELECTION_SET_AT_ROOT : String :=
  "operations with selection sets at the root of the document are not supported"

/-- Source `impl From<&OperationDefinition> for Operation` (operations.rs
lines 93-117).  The source panics on an unnamed operation
(`.expect("unnamed operation")`) and on a bare root selection set
(`panic!(SELECTION_SET_AT_ROOT)`); both fatal aborts are embedded as
`Except.error`. -/
def operation_from : OperationDefinition → Except String Operation
  | .query name variable_definitions selection_set =>
    match name with
    | some n => .ok ⟨n, .query, variable_definitions, selection_set⟩
    | none => .error "unnamed operation"
  | .mutation name variable_definitions selection_set =>
    match name with
    | some n => .ok ⟨n, .mutation, variable_definitions, selection_set⟩
    | none => .error "unnamed operation"
  | .subscription name variable_definitions selection_set =>
    match name with
    | some n => .ok ⟨n, .subscription, variable_definitions, selection_set⟩
    | none => .error "unnamed operation"
  | .selectionSet _ => .error SELECTION_SET_AT_ROOT

/-- Source `CodegenMode` (codegen_options.rs lines 8-14): the standalone CLI
context or the embedded derive-macro context. -/
inductive CodegenMode where
  | cli : CodegenMode
  | derive : CodegenMode
deriving DecidableEq, Repr

/-- Source `GraphQLClientCodegenOptions` (codegen_options.rs), restricted to
the fields `GeneratedModule::to_token_stream` reads; derive lists are kept as
parsed lists and the visibility as its printed form. -/
structure GraphQLClientCodegenOptions where
  mode : CodegenMode
  operation_name : Option String := none
  struct_name : Option String := none
  input_derives : List String := []
  response_derives : List String := []
  module_visibility : String := "inherited"
  query_file : Option String := none
  schema_file : Option String := none
deriving DecidableEq, Repr

/-- One item inside (or right after) the emitted module: the delegated
response-type tree, a variables-carrying struct with its derives and fields,
or the standalone-mode query-building impl attached to the variables struct. -/
inductive ModuleItem where
  | responseData (document : String) (op_name : String) : ModuleItem
  | variablesStruct (name : String) (derives : List String)
      (fields : List EmittedField) : ModuleItem
  | cliQueryImpl (struct_name : String) : ModuleItem
deriving DecidableEq, Repr

/-- Modelled from the spec: `codegen::response_for_query` (missing
`codegen.rs`): the items inside the operation's module are the variables type
of spec section 4.4 together with the response type tree delegated to the
external selection-resolution collaborator (spec sections 4.5 and 2); the
delegated tree is opaque and depends on the schema-and-document input, not on
the generation mode. -/
def response_for_query (resolve snake : String → String) (kw : List String)
    (document : String) (op : Operation)
    (options : GraphQLClientCodegenOptions) : List ModuleItem :=
  [ModuleItem.variablesStruct "Variables" options.input_derives
      (op.variable_fields resolve snake kw),
    ModuleItem.responseData document op.name]

/-- The query-building impl emitted after the module in embedded (derive)
mode, binding the host struct to the module's types. -/
structure DeriveQueryImpl where
  struct_name : String
  variables_is_unit : Bool
  module_name : String
deriving DecidableEq, Repr

/-- Structured form of the token stream produced by
`GeneratedModule::to_token_stream`: the module header data, the two literal
constants, the optional query-file include, the items inside the module and
the optional trailing impl. -/
structure EmissionUnit where
  module_visibility : String
  module_name : String
  operation_name_const : String
  query_const : String
  query_include : Option String
  items : List ModuleItem
  build_query_impl : Option DeriveQueryImpl
deriving DecidableEq, Repr

/-- Source `GeneratedModule::to_token_stream` (generated_module.rs lines
27-114).  Both modes build the same module (visibility, snake-case module
name, `OPERATION_NAME` and `QUERY` constants, optional include, response
items).  In `Cli` mode the variables struct named after the operation plus the
`GraphQLQueryCLI` impl are appended to the module items and no trailing impl
is produced; in `Derive` mode the module items stay as produced and the
`GraphQLQuery` impl for the host struct is emitted after the module, with the
unit variables type when the operation declares no variables. -/
def GeneratedModule.to_token_stream (resolve snake camel : String → String)
    (kw : List String) (op : Operation) (query_string document : String)
    (options : GraphQLClientCodegenOptions) : EmissionUnit :=
  let module_name := snake op.name
  let operation_name_ident := camel op.name
  let query_include := options.query_file
  let impls := response_for_query resolve snake kw document op options
  match options.mode with
  | .cli =>
    let expanded := op.expand_variables resolve snake kw options.input_derives
    { module_visibility := options.module_visibility
      module_name := module_name
      operation_name_const := op.name
      query_const := query_string
      query_include := query_include
      items := impls ++
        [ModuleItem.variablesStruct operation_name_ident expanded.1 expanded.2.1,
          ModuleItem.cliQueryImpl operation_name_ident]
      build_query_impl := none }
  | .derive =>
    { module_visibility := options.module_visibility
      module_name := module_name
      operation_name_const := op.name
      query_const := query_string
      query_include := query_include
      items := impls
      build_query_impl := some
        ⟨operation_name_ident, op.variables'.length = 0, module_name⟩ }

/-- Response items of an emission unit (the delegated response type tree). -/
def EmissionUnit.responseItems (u : EmissionUnit) : List ModuleItem :=
  u.items.filter (fun it => match it with | .responseData _ _ => true | _ => false)

/-- Field lists of all variables-carrying structs of an emission unit. -/
def EmissionUnit.variablesFieldLists (u : EmissionUnit) : List (List EmittedField) :=
  u.items.filterMap (fun it =>
    match it with | .variablesStruct _ _ fields => some fields | _ => none)

/-- Check of the outermost optional wrapper, as matched by `map_field` and
`variable_fields` to decide constructor membership and serde skipping. -/
def FieldType.isOptionalB : FieldType → Bool
  | .optional _ => true
  | _ => false

/-- Ordinal (code-point-wise lexicographic) comparison on character lists,
the order `str::cmp` induces on the names compared by `to_rust`'s sort. -/
def charsLe : List Char → List Char → Bool
  | [], _ => true
  | _ :: _, [] => false
  | a :: as, b :: bs =>
    if a.toNat < b.toNat then true
    else if b.toNat < a.toNat then false
    else charsLe as bs

/-- Ordinal string comparison (Rust `a.name.cmp(&b.name)` as a `≤` test). -/
def strLe (a b : String) : Bool := charsLe a.data b.data

/-- Field order used by `GqlInput::to_rust`: by field name, ordinally. -/
def fieldLe (a b : GqlObjectField) : Prop := strLe a.name b.name = true

instance : DecidableRel fieldLe := fun a b => instDecidableEqBool (strLe a.name b.name) true

/-- The sort performed by `GqlInput::to_rust` (inputs.rs lines 125-126):
`obj_fields.sort_unstable_by(|a, b| a.name.cmp(&b.name))`. -/
def sortFields (l : List GqlObjectField) : List GqlObjectField :=
  List.insertionSort fieldLe l

/-- Loop body of `GqlInput::to_rust` (inputs.rs lines 132-139): `map_field`
applied to each sorted field in order, collecting the per-field results;
`none` propagates a diverging recursiveness check. -/
def map_fields_go (fuel : Nat) (s : Schema) (resolve snake : String → String)
    (kw : List String) :
    List GqlObjectField →
      Option (List (EmittedField × Option (String × RustType) × (String × AssignVal)))
  | [] => some []
  | f :: fs =>
    match map_field fuel s resolve snake kw f with
    | none => none
    | some x => (map_fields_go fuel s resolve snake kw fs).map (fun xs => x :: xs)

/-- Structured result of `GqlInput::to_rust`: the keyword-safe struct name,
the emitted fields in order, the constructor parameters (`required_fields`)
and the constructor body assignments. -/
structure ToRustOut where
  struct_name : String
  fields : List EmittedField
  required_fields : List (String × RustType)
  struct_field_assignments : List (String × AssignVal)
deriving DecidableEq, Repr

/-- Source `GqlInput::to_rust` (inputs.rs lines 121-160): sorts the fields by
field name, maps each through `map_field` (which accumulates the constructor
parameter and assignment lists), and emits the keyword-safe struct plus its
`new` constructor. -/
def GqlInput.to_rust (fuel : Nat) (s : Schema) (resolve snake : String → String)
    (kw : List String) (inp : GqlInput) : Option ToRustOut :=
  let obj_fields := sortFields inp.fields
  (map_fields_go fuel s resolve snake kw obj_fields).map fun items =>
    { struct_name := keyword_replace kw inp.name
      fields := items.map (fun x => x.1)
      required_fields := items.filterMap (fun x => x.2.1)
      struct_field_assignments := items.map (fun x => x.2.2) }

theorem require_step_subset :
    ∀ (fuel : Nat) (s : Schema) (req pending req' : List String),
      require_step fuel s req pending = some req' → req ⊆ req' := by
  intro fuel
  induction fuel with
  | zero => intro s req pending req' h; exact absurd h (by simp [require_step])
  | succ n ih =>
    intro s req pending req' h
    cases pending with
    | nil =>
      have hr : req = req' := by simpa [require_step] using h
      exact hr ▸ List.Subset.refl _
    | cons name rest =>
      simp only [require_step] at h
      split at h
      · exact ih s req rest req' h
      · split at h
        · exact ih s req rest req' h
        · exact fun x hx => ih s (name :: req) _ req' h (List.mem_cons_of_mem _ hx)

theorem require_step_pending_mem :
    ∀ (fuel : Nat) (s : Schema) (req pending req' : List String),
      require_step fuel s req pending = some req' →
      ∀ m ∈ pending, (s.findInput m).isSome → m ∈ req' := by
  intro fuel
  induction fuel with
  | zero => intro s req pending req' h; exact absurd h (by simp [require_step])
  | succ n ih =>
    intro s req pending req' h m hm hsome
    cases pending with
    | nil => cases hm
    | cons name rest =>
      simp only [require_step] at h
      split at h
      · next hfind =>
        rcases List.mem_cons.mp hm with rfl | hmr
        · rw [hfind] at hsome; cases hsome
        · exact ih s req rest req' h m hmr hsome
      · next input hfind =>
        split at h
        · next hmem =>
          rcases List.mem_cons.mp hm with rfl | hmr
          · exact require_step_subset n s req rest req' h hmem
          · exact ih s req rest req' h m hmr hsome
        · next hmem =>
          rcases List.mem_cons.mp hm with rfl | hmr
          · exact require_step_subset n s (m :: req) _ req' h (List.mem_cons_self _ _)
          · exact ih s (name :: req) _ req' h m (List.mem_append_right _ hmr) hsome

theorem require_step_closed :
    ∀ (fuel : Nat) (s : Schema) (req pending req' : List String),
      require_step fuel s req pending = some req' →
      ∀ u ∈ req', u ∉ req → ∀ v, inputSucc s u v → v ∈ req' := by
  intro fuel
  induction fuel with
  | zero => intro s req pending req' h; exact absurd h (by simp [require_step])
  | succ n ih =>
    intro s req pending req' h u hu hunew v hsucc
    cases pending with
    | nil =>
      have hr : req = req' := by simpa [require_step] using h
      exact absurd (hr ▸ hu) hunew
    | cons name rest =>
      simp only [require_step] at h
      split at h
      · exact ih s req rest req' h u hu hunew v hsucc
      · next input hfind =>
        split at h
        · exact ih s req rest req' h u hu hunew v hsucc
        · by_cases hun : u = name
          · subst hun
            obtain ⟨i, hfi, ⟨f, hf, hfv⟩, hvsome⟩ := hsucc
            have hi : i = input := by rw [hfind] at hfi; exact (Option.some.inj hfi).symm
            subst hi
            refine require_step_pending_mem n s (u :: req) _ req' h v ?_ hvsome
            exact List.mem_append_left _ (hfv ▸ List.mem_map_of_mem _ hf)
          · refine ih s (name :: req) _ req' h u hu ?_ v hsucc
            intro hcon
            rcases List.mem_cons.mp hcon with h1 | h2
            · exact hun h1
            · exact hunew h2

theorem filter_weight_split (req : List String) (name : String) :
    ∀ (l : List GqlInput), (l.map (fun i => i.name)).Nodup →
      ∀ input ∈ l, input.name = name → name ∉ req →
        ((l.filter (fun j => decide (j.name ∉ req))).map inputWeight).sum
          = ((l.filter (fun j => decide (j.name ∉ name :: req))).map inputWeight).sum
            + inputWeight input := by
  intro l
  induction l with
  | nil => intro _ input hmem; cases hmem
  | cons j t ih =>
    intro hnd input hmem hname hreq
    have hnd' := List.nodup_cons.mp hnd
    have tail_filter_eq :
        (∀ k ∈ t, k.name ≠ name) →
          t.filter (fun k => decide (k.name ∉ req))
            = t.filter (fun k => decide (k.name ∉ name :: req)) := by
      intro hne
      refine List.filter_congr ?_
      intro k hk
      have hkne := hne k hk
      simp only [decide_eq_decide, List.mem_cons, not_or]
      tauto
    rcases List.mem_cons.mp hmem with rfl | hmt
    · have hall : ∀ k ∈ t, k.name ≠ name := by
        intro k hk hkn
        have hin : k.name ∈ List.map (fun i => i.name) t := List.mem_map_of_mem _ hk
        rw [hkn, ← hname] at hin
        exact hnd'.1 hin
      simp only [List.filter_cons, tail_filter_eq hall]
      rw [if_pos (by simp [hname, hreq]), if_neg (by simp [hname])]
      simp only [List.map_cons, List.sum_cons]
      omega
    · have hjname : j.name ≠ name := by
        intro hjn
        have hin : input.name ∈ List.map (fun i => i.name) t := List.mem_map_of_mem _ hmt
        rw [hname, ← hjn] at hin
        exact hnd'.1 hin
      have hsplit := ih hnd'.2 input hmt hname hreq
      have hiff : (j.name ∉ name :: req) ↔ (j.name ∉ req) := by
        simp only [List.mem_cons, not_or]
        tauto
      simp only [List.filter_cons]
      by_cases hj : j.name ∉ req
      · rw [if_pos (by simpa using hj), if_pos (by simpa using hiff.mpr hj)]
        simp only [List.map_cons, List.sum_cons, hsplit]
        omega
      · have hjr : j.name ∈ req := by simpa using hj
        rw [if_neg (by simpa using hj), if_neg (by simp [List.mem_cons, hjr])]
        exact hsplit

theorem unmarkedWeight_erase (s : Schema) (req : List String) (name : String)
    (input : GqlInput) (hnd : s.inputNames.Nodup)
    (hfind : s.findInput name = some input) (hm : name ∉ req) :
    unmarkedWeight s req = unmarkedWeight s (name :: req) + inputWeight input := by
  have hmem : input ∈ s.inputs := List.mem_of_find?_eq_some hfind
  have hname : input.name = name := by
    have := List.find?_some hfind
    simpa using this
  exact filter_weight_split req name s.inputs hnd input hmem hname hm

theorem require_step_total (s : Schema) (hnd : s.inputNames.Nodup) :
    ∀ (fuel : Nat) (req pending : List String),
      requireFuel s req pending ≤ fuel →
      ∃ req', require_step fuel s req pending = some req' := by
  intro fuel
  induction fuel with
  | zero =>
    intro req pending hle
    exact absurd hle (by simp [requireFuel])
  | succ n ih =>
    intro req pending hle
    cases pending with
    | nil => exact ⟨req, rfl⟩
    | cons name rest =>
      cases hfind : s.findInput name with
      | none =>
        obtain ⟨req', h⟩ := ih req rest (by
          simp only [requireFuel, List.length_cons] at hle ⊢; omega)
        exact ⟨req', by simp [require_step, hfind]; exact h⟩
      | some input =>
        by_cases hm : name ∈ req
        · obtain ⟨req', h⟩ := ih req rest (by
            simp only [requireFuel, List.length_cons] at hle ⊢; omega)
          exact ⟨req', by simp [require_step, hfind, hm]; exact h⟩
        · have hergo := unmarkedWeight_erase s req name input hnd hfind hm
          obtain ⟨req', h⟩ := ih (name :: req)
            ((input.fields.map (fun f => f.type_.inner_name_str)) ++ rest) (by
              simp only [requireFuel, List.length_cons, List.length_append,
                List.length_map, inputWeight] at hle hergo ⊢
              omega)
          exact ⟨req', by simp [require_step, hfind, hm]; exact h⟩

theorem require_eq (s : Schema) (req : List String) (name : String)
    (hnd : s.inputNames.Nodup) :
    require_step (requireFuel s req [name]) s req [name] = some (s.require req name) := by
  obtain ⟨req', h⟩ := require_step_total s hnd (requireFuel s req [name]) req [name] le_rfl
  rw [Schema.require, h]
  rfl

/-- Input object `A { b: B }` of the mutually-referencing sample schema. -/
def aInput : GqlInput := ⟨none, "A", [⟨none, "b", .named "B", .current⟩]⟩

/-- Input object `B { b2: B }`: self-referential without indirection, and it
does not name `A`. -/
def bInput : GqlInput := ⟨none, "B", [⟨none, "b2", .named "B", .current⟩]⟩

/-- Sample schema with the input-object reference cycle `A → B → B`. -/
def abSchema : Schema := { inputs := [aInput, bInput] }

/-- Field `q: Q` of the acyclic sample schema. -/
def pField : GqlObjectField := ⟨none, "q", .named "Q", .current⟩

/-- Input object `P { q: Q }`. -/
def pInput : GqlInput := ⟨none, "P", [pField]⟩

/-- Input object `Q { }`. -/
def qInput : GqlInput := ⟨none, "Q", []⟩

/-- Acyclic sample schema `P → Q`. -/
def pqSchema : Schema := { inputs := [pInput, qInput] }

/-- C10: `GqlInput::require` terminates on every schema (with distinct input
names, as the `HashMap` keying guarantees), including input objects whose
fields form reference cycles: `requireFuel` fuel always suffices because the
mark is added to `req` before the field names are pushed and the early-return
guard stops the descent at every already-marked input, so each input is
descended into at most once. -/
theorem require_terminates (s : Schema) (req : List String) (name : String)
    (hnd : s.inputNames.Nodup) :
    ∃ req', require_step (requireFuel s req [name]) s req [name] = some req' :=
  require_step_total s hnd _ req [name] le_rfl

/-- Witness for C10 on the cyclic sample schema `A → B → B`. -/
theorem require_terminates_witness :
    (Schema.inputNames abSchema).Nodup ∧
      ∃ req', require_step (requireFuel abSchema [] ["A"]) abSchema [] ["A"] = some req' :=
  ⟨by decide, require_terminates abSchema [] "A" (by decide)⟩

/-- C4: `GqlInput::require` is monotonic (the marked set only grows; no call
resets a mark) and idempotent: requiring an already-required name changes no
state, and `require; require` equals `require`. -/
theorem require_idempotent_monotone (s : Schema) (req : List String) (name : String)
    (hnd : s.inputNames.Nodup) :
    req ⊆ s.require req name ∧
    s.require (s.require req name) name = s.require req name ∧
    (name ∈ req → s.require req name = req) := by
  have hstep := require_eq s req name hnd
  refine ⟨require_step_subset _ s req [name] _ hstep, ?_, ?_⟩
  · obtain ⟨m, hm⟩ : ∃ m, requireFuel s (s.require req name) [name] = m + 2 :=
      ⟨unmarkedWeight s (s.require req name), by simp [requireFuel]; omega⟩
    rw [Schema.require, hm]
    cases hfind : s.findInput name with
    | none => simp [require_step, hfind]
    | some input =>
      have hmem : name ∈ s.require req name :=
        require_step_pending_mem _ s req [name] _ hstep name (by simp) (by simp [hfind])
      simp [require_step, hfind, hmem]
  · intro hin
    obtain ⟨m, hm⟩ : ∃ m, requireFuel s req [name] = m + 2 :=
      ⟨unmarkedWeight s req, by simp [requireFuel]; omega⟩
    rw [Schema.require, hm]
    cases hfind : s.findInput name with
    | none => simp [require_step, hfind]
    | some input => simp [require_step, hfind, hin]

/-- Witness for C4 on the cyclic sample schema, with the mark already set. -/
theorem require_idempotent_monotone_witness :
    ["A"] ⊆ abSchema.require ["A"] "A" ∧
      abSchema.require (abSchema.require ["A"] "A") "A" = abSchema.require ["A"] "A" ∧
      ("A" ∈ ["A"] → abSchema.require ["A"] "A" = ["A"]) :=
  require_idempotent_monotone abSchema ["A"] "A" (by decide)

theorem require_closed_preserved (s : Schema) (hnd : s.inputNames.Nodup)
    (req : List String) (name : String) (hcl : ReqClosed s req) :
    ReqClosed s (s.require req name) := by
  have hstep := require_eq s req name hnd
  intro u hu v hsucc
  by_cases hur : u ∈ req
  · exact require_step_subset _ s req [name] _ hstep (hcl u hur v hsucc)
  · exact require_step_closed _ s req [name] _ hstep u hu hur v hsucc

theorem requireMany_closed (s : Schema) (hnd : s.inputNames.Nodup) :
    ∀ (names : List String) (req : List String),
      ReqClosed s req → ReqClosed s (s.requireMany names req) := by
  intro names
  induction names with
  | nil => intro req h; exact h
  | cons n ns ih =>
    intro req h
    show ReqClosed s (s.requireMany ns (s.require req n))
    exact ih _ (require_closed_preserved s hnd req n h)

/-- C3: after any sequence of `require` calls from the all-unmarked state,
every input object reachable from a marked input object `T` along field type
references whose innermost name resolves to an input object is marked too. -/
theorem require_reachability_closure (s : Schema) (names : List String) (T v : String)
    (hnd : s.inputNames.Nodup) (hT : T ∈ s.requireMany names [])
    (hreach : inputReach s T v) : v ∈ s.requireMany names [] := by
  have hcl : ReqClosed s (s.requireMany names []) :=
    requireMany_closed s hnd names [] (by intro u hu; exact absurd hu (List.not_mem_nil u))
  induction hreach with
  | refl => exact hT
  | tail hab hbc ih => exact hcl _ ih _ hbc

/-- Witness for C3 on the acyclic sample schema `P → Q`: requiring `P` marks
the reachable input `Q`. -/
theorem require_reachability_closure_witness :
    "Q" ∈ pqSchema.requireMany ["P"] [] :=
  require_reachability_closure pqSchema ["P"] "P" "Q" (by decide) (by decide)
    (Relation.ReflTransGen.single ⟨pInput, by decide, ⟨pField, by decide, by decide⟩, by decide⟩)

/-- Termination of the source recursion
`contains_type_without_indirection` on a given argument: some fuel makes the
embedded recursion complete. -/
def contains_terminates (s : Schema) (i : GqlInput) (name : String) : Prop :=
  ∃ fuel b, i.contains_type_without_indirection fuel s name = some b

theorem contains_bloop :
    ∀ n, contains_step n abSchema "A" bInput.fields = none := by
  intro n
  induction n with
  | zero => rfl
  | succ n ih => exact ih

theorem contains_aloop :
    ∀ n, contains_step n abSchema "A" aInput.fields = none := by
  intro n
  cases n with
  | zero => rfl
  | succ n => exact contains_bloop n

/-- Weight of a field list under a recursion budget `k`: an upper bound on the
number of `contains_step` steps needed to exhaust these fields when every
chain of non-indirected input references starting from them has length at
most `k`. -/
def fieldsWeight (s : Schema) : Nat → List GqlObjectField → Nat
  | 0, l => l.length
  | k + 1, l =>
    (l.map (fun f =>
      if f.type_.is_indirected then 1
      else
        match s.findInput f.type_.inner_name_str with
        | none => 1
        | some j => 1 + fieldsWeight s k j.fields)).sum

/-- Weight of one field under budget `k`. -/
def fieldWeight (s : Schema) (k : Nat) (f : GqlObjectField) : Nat :=
  fieldsWeight s k [f]

/-- Budget assigned to one field by a rank function on input names: the rank
of the input object it enters, plus one; fields that enter no input need no
budget. -/
def fieldBudget (s : Schema) (rank : String → Nat) (f : GqlObjectField) : Nat :=
  if f.type_.is_indirected then 0
  else
    match s.findInput f.type_.inner_name_str with
    | none => 0
    | some j => rank j.name + 1

/-- Weight of a pending stack: each field weighted under its own budget. -/
def pendingWeight (s : Schema) (rank : String → Nat)
    (l : List GqlObjectField) : Nat :=
  (l.map (fun f => fieldWeight s (fieldBudget s rank f) f)).sum

/-- Decidable check that `rank` strictly decreases across every non-indirected
input-object reference of the schema: a witness that the non-indirected
input-reference graph is acyclic. -/
def rankOk (s : Schema) (rank : String → Nat) : Bool :=
  s.inputs.all fun i => i.fields.all fun f =>
    f.type_.is_indirected ||
      (match s.findInput f.type_.inner_name_str with
       | none => true
       | some j => decide (rank j.name < rank i.name))

theorem rankOk_spec (s : Schema) (rank : String → Nat) (h : rankOk s rank = true) :
    ∀ i ∈ s.inputs, ∀ f ∈ i.fields, f.type_.is_indirected = false →
      ∀ j, s.findInput f.type_.inner_name_str = some j →
        rank j.name < rank i.name := by
  intro i hi f hf hind j hj
  have hx := (List.all_eq_true.mp ((List.all_eq_true.mp h) i hi)) f hf
  rw [hind, hj] at hx
  simpa using hx

theorem fieldsWeight_nil (s : Schema) (k : Nat) : fieldsWeight s k [] = 0 := by
  cases k <;> rfl

theorem fieldWeight_zero (s : Schema) (f : GqlObjectField) :
    fieldWeight s 0 f = 1 := rfl

theorem fieldsWeight_cons (s : Schema) (k : Nat) (f : GqlObjectField)
    (l : List GqlObjectField) :
    fieldsWeight s k (f :: l) = fieldWeight s k f + fieldsWeight s k l := by
  cases k with
  | zero => simp [fieldsWeight, fieldWeight, Nat.add_comm]
  | succ k => simp [fieldsWeight, fieldWeight]

theorem fieldWeight_indirected (s : Schema) (k : Nat) (f : GqlObjectField)
    (h : f.type_.is_indirected = true) : fieldWeight s k f = 1 := by
  cases k with
  | zero => rfl
  | succ k => simp [fieldWeight, fieldsWeight, h]

theorem fieldWeight_noinput (s : Schema) (k : Nat) (f : GqlObjectField)
    (h : f.type_.is_indirected = false)
    (hfind : s.findInput f.type_.inner_name_str = none) : fieldWeight s k f = 1 := by
  cases k with
  | zero => rfl
  | succ k => simp [fieldWeight, fieldsWeight, h, hfind]

theorem fieldWeight_some (s : Schema) (k : Nat) (f : GqlObjectField) (j : GqlInput)
    (h : f.type_.is_indirected = false)
    (hfind : s.findInput f.type_.inner_name_str = some j) :
    fieldWeight s (k + 1) f = 1 + fieldsWeight s k j.fields := by
  simp [fieldWeight, fieldsWeight, h, hfind]

theorem fieldWeight_pos (s : Schema) (k : Nat) (f : GqlObjectField) :
    1 ≤ fieldWeight s k f := by
  cases k with
  | zero => exact le_refl 1
  | succ k =>
    by_cases hi : f.type_.is_indirected
    · rw [fieldWeight_indirected s _ f hi]
    · cases hfind : s.findInput f.type_.inner_name_str with
      | none => rw [fieldWeight_noinput s _ f (by simpa using hi) hfind]
      | some j =>
        rw [fieldWeight_some s k f j (by simpa using hi) hfind]
        omega

theorem fieldsWeight_len (s : Schema) (k : Nat) :
    ∀ l : List GqlObjectField, l.length ≤ fieldsWeight s k l := by
  intro l
  induction l with
  | nil => simp [fieldsWeight_nil]
  | cons f t ih =>
    rw [fieldsWeight_cons]
    have := fieldWeight_pos s k f
    simp only [List.length_cons]
    omega

theorem fieldsWeight_mono (s : Schema) :
    ∀ (k k' : Nat), k ≤ k' → ∀ l, fieldsWeight s k l ≤ fieldsWeight s k' l := by
  intro k
  induction k with
  | zero =>
    intro k' _ l
    calc l.length ≤ fieldsWeight s k' l := fieldsWeight_len s k' l
  | succ k ih =>
    intro k' hk l
    obtain ⟨m, rfl⟩ : ∃ m, k' = m + 1 := ⟨k' - 1, by omega⟩
    have hkm : k ≤ m := by omega
    induction l with
    | nil => simp [fieldsWeight_nil]
    | cons f t iht =>
      rw [fieldsWeight_cons, fieldsWeight_cons]
      have hhead : fieldWeight s (k + 1) f ≤ fieldWeight s (m + 1) f := by
        by_cases hi : f.type_.is_indirected
        · rw [fieldWeight_indirected s _ f hi, fieldWeight_indirected s _ f hi]
        · cases hfind : s.findInput f.type_.inner_name_str with
          | none =>
            rw [fieldWeight_noinput s _ f (by simpa using hi) hfind,
              fieldWeight_noinput s _ f (by simpa using hi) hfind]
          | some j =>
            rw [fieldWeight_some s k f j (by simpa using hi) hfind,
              fieldWeight_some s m f j (by simpa using hi) hfind]
            have := ih m hkm j.fields
            omega
      omega

theorem pendingWeight_nil (s : Schema) (rank : String → Nat) :
    pendingWeight s rank [] = 0 := rfl

theorem pendingWeight_cons (s : Schema) (rank : String → Nat)
    (f : GqlObjectField) (l : List GqlObjectField) :
    pendingWeight s rank (f :: l)
      = fieldWeight s (fieldBudget s rank f) f + pendingWeight s rank l := by
  simp [pendingWeight]

theorem pendingWeight_append (s : Schema) (rank : String → Nat)
    (l₁ l₂ : List GqlObjectField) :
    pendingWeight s rank (l₁ ++ l₂)
      = pendingWeight s rank l₁ + pendingWeight s rank l₂ := by
  simp [pendingWeight]

theorem pendingWeight_le_fieldsWeight (s : Schema) (rank : String → Nat)
    (hrank : ∀ i ∈ s.inputs, ∀ f ∈ i.fields, f.type_.is_indirected = false →
      ∀ j, s.findInput f.type_.inner_name_str = some j →
        rank j.name < rank i.name)
    (j : GqlInput) (hj : j ∈ s.inputs) :
    pendingWeight s rank j.fields ≤ fieldsWeight s (rank j.name) j.fields := by
  have hpoint : ∀ g ∈ j.fields,
      fieldWeight s (fieldBudget s rank g) g ≤ fieldWeight s (rank j.name) g := by
    intro g hg
    by_cases hi : g.type_.is_indirected
    · rw [fieldWeight_indirected s _ g hi]
      exact fieldWeight_pos s _ g
    · cases hfind : s.findInput g.type_.inner_name_str with
      | none =>
        rw [fieldWeight_noinput s _ g (by simpa using hi) hfind]
        exact fieldWeight_pos s _ g
      | some kj =>
        have hlt := hrank j hj g hg (by simpa using hi) kj hfind
        have hbud : fieldBudget s rank g = rank kj.name + 1 := by
          simp [fieldBudget, hi, hfind]
        rw [hbud]
        exact fieldsWeight_mono s (rank kj.name + 1) (rank j.name) (by omega) [g]
  have : ∀ l, (∀ g ∈ l, fieldWeight s (fieldBudget s rank g) g
      ≤ fieldWeight s (rank j.name) g) →
      pendingWeight s rank l ≤ fieldsWeight s (rank j.name) l := by
    intro l
    induction l with
    | nil => intro _; simp [pendingWeight_nil, fieldsWeight_nil]
    | cons g t ih =>
      intro hl
      rw [pendingWeight_cons, fieldsWeight_cons]
      have h1 := hl g (List.mem_cons_self _ _)
      have h2 := ih (fun x hx => hl x (List.mem_cons_of_mem _ hx))
      omega
  exact this j.fields hpoint

theorem contains_step_total_of_rank (s : Schema) (rank : String → Nat)
    (hrank : ∀ i ∈ s.inputs, ∀ f ∈ i.fields, f.type_.is_indirected = false →
      ∀ j, s.findInput f.type_.inner_name_str = some j →
        rank j.name < rank i.name)
    (target : String) :
    ∀ (N : Nat) (pending : List GqlObjectField),
      pendingWeight s rank pending ≤ N →
      ∃ fuel b, contains_step fuel s target pending = some b := by
  intro N
  induction N with
  | zero =>
    intro pending hw
    cases pending with
    | nil => exact ⟨1, false, rfl⟩
    | cons f t =>
      rw [pendingWeight_cons] at hw
      have := fieldWeight_pos s (fieldBudget s rank f) f
      omega
  | succ N ih =>
    intro pending hw
    cases pending with
    | nil => exact ⟨1, false, rfl⟩
    | cons f t =>
      rw [pendingWeight_cons] at hw
      by_cases hi : f.type_.is_indirected
      · have hwt : pendingWeight s rank t ≤ N := by
          have := fieldWeight_pos s (fieldBudget s rank f) f
          omega
        obtain ⟨fuel, b, h⟩ := ih t hwt
        exact ⟨fuel + 1, b, by simp [contains_step, hi]; exact h⟩
      · cases hfind : s.findInput f.type_.inner_name_str with
        | none =>
          have hwt : pendingWeight s rank t ≤ N := by
            have := fieldWeight_pos s (fieldBudget s rank f) f
            omega
          obtain ⟨fuel, b, h⟩ := ih t hwt
          exact ⟨fuel + 1, b, by simp [contains_step, hi, hfind]; exact h⟩
        | some j =>
          by_cases hname : j.name = target
          · exact ⟨1, true, by simp [contains_step, hi, hfind, hname]⟩
          · have hjmem : j ∈ s.inputs := List.mem_of_find?_eq_some hfind
            have hgb := pendingWeight_le_fieldsWeight s rank hrank j hjmem
            have hbud : fieldBudget s rank f = rank j.name + 1 := by
              simp [fieldBudget, hi, hfind]
            have hbudget : fieldWeight s (fieldBudget s rank f) f
                = 1 + fieldsWeight s (rank j.name) j.fields := by
              rw [hbud]
              exact fieldWeight_some s (rank j.name) f j (by simpa using hi) hfind
            have hwnew : pendingWeight s rank (j.fields ++ t) ≤ N := by
              rw [pendingWeight_append]
              omega
            obtain ⟨fuel, b, h⟩ := ih _ hwnew
            exact ⟨fuel + 1, b, by simp [contains_step, hi, hfind, hname]; exact h⟩

/-- C2 counterexample: on the schema `A { b: B }`, `B { b2: B }` — input
objects forming a reference cycle none of which names the searched type —
`contains_type_without_indirection(A, "A")` never completes, whatever the
fuel: the recursion is trapped in the `B → B` cycle. -/
theorem contains_diverges_counterexample :
    ¬ contains_terminates abSchema aInput "A" := by
  rintro ⟨fuel, b, h⟩
  simp only [GqlInput.contains_type_without_indirection] at h
  rw [contains_aloop fuel] at h
  exact Option.noConfusion h

/-- C2 amended: the recursive-indirection reachability check
`contains_type_without_indirection` terminates on every schema whose
non-indirected input-object reference graph is acyclic (witnessed by a rank
function that strictly decreases across each such reference); on a schema
with a reference cycle that does not name the searched type the check does
not terminate. -/
theorem contains_terminates_of_acyclic (s : Schema) (rank : String → Nat)
    (hrank : rankOk s rank = true) (i : GqlInput) (target : String) :
    contains_terminates s i target := by
  obtain ⟨fuel, b, h⟩ := contains_step_total_of_rank s rank (rankOk_spec s rank hrank)
    target (pendingWeight s rank i.fields) i.fields le_rfl
  exact ⟨fuel, b, h⟩

/-- Witness for the amended C2 on the acyclic sample schema `P → Q`. -/
theorem contains_terminates_of_acyclic_witness :
    rankOk pqSchema (fun n => if n = "P" then 1 else 0) = true ∧
      contains_terminates pqSchema pInput "P" :=
  ⟨by decide,
    contains_terminates_of_acyclic pqSchema (fun n => if n = "P" then 1 else 0)
      (by decide) pInput "P"⟩

/-- Field `parent: Category` — a bare (non-indirected) self-reference. -/
def parentFld : GqlObjectField := ⟨none, "parent", .named "Category", .current⟩

/-- Field `children: [Category]` — reaches the same type through a list. -/
def childrenFld : GqlObjectField := ⟨none, "children", .vector (.named "Category"), .current⟩

/-- Field `opt_parent: Category` (optional, non-list self-reference). -/
def optParentFld : GqlObjectField :=
  ⟨none, "optParent", .optional (.named "Category"), .current⟩

/-- The spec's recursive input object
`Category { parent: Category, children: [Category], optParent: Category }`. -/
def categoryInput : GqlInput := ⟨none, "Category", [parentFld, childrenFld, optParentFld]⟩

/-- Schema holding the recursive `Category` input object. -/
def categorySchema : Schema := { inputs := [categoryInput] }

/-- C1 counterexample: `Category` is recursive without indirection, and the
list field `children: [Category]` IS additionally boxed by `map_field` — the
emitted type is `Box<Vec<Category>>`, not the unboxed mapped type
`Vec<Category>` the claim requires. -/
theorem map_field_list_boxed_counterexample :
    map_field_ty 1 categorySchema id childrenFld
        = some (RustType.box (RustType.vec (RustType.named "Category"))) ∧
      map_field_ty 1 categorySchema id childrenFld
        ≠ some (childrenFld.type_.to_rust id) := by
  refine ⟨by decide, by decide⟩

/-- C1 amended: when a field's innermost type names an input object that is
recursive without indirection, `map_field` boxes the field's type — an
optional field keeps its option around the boxed inner type
(`Option<Box<inner>>`, also when the inner part is a list), and every other
field (bare self-references and list references alike) gets the whole mapped
type boxed (`Box<T>`, `Box<Vec<T>>`); a field whose innermost type is not a
recursive input object is mapped unchanged. -/
theorem map_field_boxing (fuel : Nat) (s : Schema) (resolve : String → String)
    (f : GqlObjectField) :
    (∀ input, s.findInput f.type_.inner_name_str = some input →
        input.is_recursive_without_indirection fuel s = some true →
        map_field_ty fuel s resolve f = some (match f.type_ with
          | .optional inner => .option (.box (inner.to_rust resolve))
          | t => .box (t.to_rust resolve))) ∧
    (∀ input, s.findInput f.type_.inner_name_str = some input →
        input.is_recursive_without_indirection fuel s = some false →
        map_field_ty fuel s resolve f = some (f.type_.to_rust resolve)) ∧
    (s.findInput f.type_.inner_name_str = none →
        map_field_ty fuel s resolve f = some (f.type_.to_rust resolve)) := by
  refine ⟨?_, ?_, ?_⟩
  · intro input hfind hrec
    simp [map_field_ty, hfind, hrec]
  · intro input hfind hrec
    simp [map_field_ty, hfind, hrec]
  · intro hfind
    simp [map_field_ty, hfind]

/-- Witness for the amended C1 on the `Category` schema: the bare
self-reference becomes `Box<Category>` and the optional one
`Option<Box<Category>>`. -/
theorem map_field_boxing_witness :
    map_field_ty 1 categorySchema id parentFld
        = some (RustType.box (RustType.named "Category")) ∧
      map_field_ty 1 categorySchema id optParentFld
        = some (RustType.option (RustType.box (RustType.named "Category"))) :=
  ⟨(map_field_boxing 1 categorySchema id parentFld).1 categoryInput
      (by decide) (by decide),
    (map_field_boxing 1 categorySchema id optParentFld).1 categoryInput
      (by decide) (by decide)⟩

theorem charsLe_total : ∀ a b : List Char, charsLe a b = true ∨ charsLe b a = true := by
  intro a
  induction a with
  | nil => intro b; left; rfl
  | cons x xs ih =>
    intro b
    cases b with
    | nil => right; rfl
    | cons y ys =>
      rcases Nat.lt_trichotomy x.toNat y.toNat with h | h | h
      · left; simp [charsLe, h]
      · have hxy : ¬ x.toNat < y.toNat := by omega
        have hyx : ¬ y.toNat < x.toNat := by omega
        rcases ih ys with hc | hc
        · left; simp only [charsLe, hxy, hyx, if_false]; exact hc
        · right; simp only [charsLe, hxy, hyx, if_false]; exact hc
      · right; simp [charsLe, h]

theorem charsLe_trans :
    ∀ a b c : List Char, charsLe a b = true → charsLe b c = true →
      charsLe a c = true := by
  intro a
  induction a with
  | nil => intro b c _ _; rfl
  | cons x xs ih =>
    intro b c hab hbc
    cases b with
    | nil => exact absurd hab (by simp [charsLe])
    | cons y ys =>
      cases c with
      | nil => exact absurd hbc (by simp [charsLe])
      | cons z zs =>
        by_cases hxy : x.toNat < y.toNat
        · by_cases hyz : y.toNat < z.toNat
          · simp [charsLe, show x.toNat < z.toNat by omega]
          · by_cases hzy : z.toNat < y.toNat
            · simp [charsLe, hyz, hzy] at hbc
            · simp [charsLe, show x.toNat < z.toNat by omega]
        · by_cases hyx : y.toNat < x.toNat
          · simp [charsLe, hxy, hyx] at hab
          · by_cases hyz : y.toNat < z.toNat
            · simp [charsLe, show x.toNat < z.toNat by omega]
            · by_cases hzy : z.toNat < y.toNat
              · simp [charsLe, hyz, hzy] at hbc
              · have h1 : charsLe xs ys = true := by
                  simpa [charsLe, hxy, hyx] using hab
                have h2 : charsLe ys zs = true := by
                  simpa [charsLe, hyz, hzy] using hbc
                have hxz : ¬ x.toNat < z.toNat := by omega
                have hzx : ¬ z.toNat < x.toNat := by omega
                simp only [charsLe, hxz, hzx, if_false]
                exact ih ys zs h1 h2

theorem charsLe_antisymm :
    ∀ a b : List Char, charsLe a b = true → charsLe b a = true → a = b := by
  intro a
  induction a with
  | nil =>
    intro b _ hba
    cases b with
    | nil => rfl
    | cons y ys => exact absurd hba (by simp [charsLe])
  | cons x xs ih =>
    intro b hab hba
    cases b with
    | nil => exact absurd hab (by simp [charsLe])
    | cons y ys =>
      by_cases hxy : x.toNat < y.toNat
      · simp [charsLe, hxy, show ¬ y.toNat < x.toNat by omega] at hba
      · by_cases hyx : y.toNat < x.toNat
        · simp [charsLe, hxy, hyx] at hab
        · have hn : x.toNat = y.toNat := by omega
          have hchar : x = y :=
            Char.eq_of_val_eq (UInt32.eq_of_val_eq (Fin.eq_of_val_eq hn))
          have h1 : charsLe xs ys = true := by simpa [charsLe, hxy, hyx] using hab
          have h2 : charsLe ys xs = true := by simpa [charsLe, hxy, hyx] using hba
          rw [hchar, ih ys h1 h2]

theorem strLe_total (a b : String) : strLe a b = true ∨ strLe b a = true :=
  charsLe_total a.data b.data

theorem strLe_trans (a b c : String) (h1 : strLe a b = true) (h2 : strLe b c = true) :
    strLe a c = true :=
  charsLe_trans a.data b.data c.data h1 h2

theorem strLe_antisymm (a b : String) (h1 : strLe a b = true) (h2 : strLe b a = true) :
    a = b :=
  String.ext (charsLe_antisymm a.data b.data h1 h2)

instance : IsTotal GqlObjectField fieldLe :=
  ⟨fun a b => strLe_total a.name b.name⟩

instance : IsTrans GqlObjectField fieldLe :=
  ⟨fun a b c h1 h2 => strLe_trans a.name b.name c.name h1 h2⟩

theorem sortFields_sorted (l : List GqlObjectField) :
    (sortFields l).Pairwise fieldLe :=
  List.sorted_insertionSort fieldLe l

theorem sortFields_perm (l : List GqlObjectField) : (sortFields l).Perm l :=
  List.perm_insertionSort fieldLe l

theorem sorted_perm_nodup_eq :
    ∀ (l₁ l₂ : List GqlObjectField), l₁.Perm l₂ →
      l₁.Pairwise fieldLe → l₂.Pairwise fieldLe →
      (l₁.map (fun f => f.name)).Nodup → l₁ = l₂ := by
  intro l₁
  induction l₁ with
  | nil => intro l₂ hp _ _ _; exact (List.Perm.nil_eq hp).symm ▸ rfl
  | cons a t₁ ih =>
    intro l₂ hp hs₁ hs₂ hnd
    cases l₂ with
    | nil => exact absurd hp.symm (by simp)
    | cons b t₂ =>
      have hab : a = b := by
        by_contra hne
        have hbmem : b ∈ a :: t₁ := hp.mem_iff.mpr (List.mem_cons_self _ _)
        have hamem : a ∈ b :: t₂ := hp.mem_iff.mp (List.mem_cons_self _ _)
        have hbt₁ : b ∈ t₁ := by
          rcases List.mem_cons.mp hbmem with h | h
          · exact absurd h.symm hne
          · exact h
        have hat₂ : a ∈ t₂ := by
          rcases List.mem_cons.mp hamem with h | h
          · exact absurd h hne
          · exact h
        have h1 : fieldLe a b := (List.pairwise_cons.mp hs₁).1 b hbt₁
        have h2 : fieldLe b a := (List.pairwise_cons.mp hs₂).1 a hat₂
        have hname : a.name = b.name := strLe_antisymm _ _ h1 h2
        have : a.name ∈ t₁.map (fun f => f.name) :=
          hname ▸ List.mem_map_of_mem _ hbt₁
        exact (List.nodup_cons.mp hnd).1 this
      subst hab
      have hpt : t₁.Perm t₂ := hp.cons_inv
      rw [ih t₂ hpt (List.pairwise_cons.mp hs₁).2 (List.pairwise_cons.mp hs₂).2
        (List.nodup_cons.mp hnd).2]

theorem sortFields_perm_invariant (l l' : List GqlObjectField)
    (hp : l.Perm l') (hnd : (l.map (fun f => f.name)).Nodup) :
    sortFields l = sortFields l' := by
  refine sorted_perm_nodup_eq _ _ ?_ (sortFields_sorted l) (sortFields_sorted l') ?_
  · exact (sortFields_perm l).trans (hp.trans (sortFields_perm l').symm)
  · exact (((sortFields_perm l).map (fun f => f.name)).nodup_iff).mpr hnd

theorem map_field_parts (fuel : Nat) (s : Schema) (resolve snake : String → String)
    (kw : List String) (f : GqlObjectField) (e : EmittedField)
    (p : Option (String × RustType)) (a : String × AssignVal)
    (h : map_field fuel s resolve snake kw f = some (e, p, a)) :
    e.name = keyword_replace kw (snake f.name) ∧
    e.skip_serde = f.type_.isOptionalB ∧
    e.rename = field_rename_directive f.name (keyword_replace kw (snake f.name)) ∧
    p = (if f.type_.isOptionalB then none else some (e.name, e.ty)) ∧
    a = (e.name, if f.type_.isOptionalB then AssignVal.noneDefault
          else AssignVal.var e.name) := by
  simp only [map_field] at h
  cases hty : map_field_ty fuel s resolve f with
  | none => rw [hty] at h; cases h
  | some ty =>
    rw [hty] at h
    simp only [Option.map_some', Option.some.injEq] at h
    cases hft : f.type_ with
    | named nm =>
      rw [hft] at h
      simp only [Prod.mk.injEq] at h
      obtain ⟨h1, h2, h3⟩ := h
      subst h1; subst h2; subst h3
      simp [FieldType.isOptionalB, hft]
    | optional inner =>
      rw [hft] at h
      simp only [Prod.mk.injEq] at h
      obtain ⟨h1, h2, h3⟩ := h
      subst h1; subst h2; subst h3
      simp [FieldType.isOptionalB, hft]
    | vector inner =>
      rw [hft] at h
      simp only [Prod.mk.injEq] at h
      obtain ⟨h1, h2, h3⟩ := h
      subst h1; subst h2; subst h3
      simp [FieldType.isOptionalB, hft]

theorem map_fields_go_spec (fuel : Nat) (s : Schema) (resolve snake : String → String)
    (kw : List String) :
    ∀ (l : List GqlObjectField)
      (items : List (EmittedField × Option (String × RustType) × (String × AssignVal))),
      map_fields_go fuel s resolve snake kw l = some items →
      items.map (fun x => x.1.name) = l.map (fun f => keyword_replace kw (snake f.name)) ∧
      items.map (fun x => x.1.skip_serde) = l.map (fun f => f.type_.isOptionalB) ∧
      items.filterMap (fun x => x.2.1)
        = ((items.map (fun x => x.1)).filter (fun e => !e.skip_serde)).map
            (fun e => (e.name, e.ty)) ∧
      items.map (fun x => x.2.2)
        = (items.map (fun x => x.1)).map
            (fun e => (e.name, if e.skip_serde then AssignVal.noneDefault
              else AssignVal.var e.name)) := by
  intro l
  induction l with
  | nil =>
    intro items h
    simp only [map_fields_go, Option.some.injEq] at h
    subst h
    simp
  | cons f t ih =>
    intro items h
    simp only [map_fields_go] at h
    cases hmf : map_field fuel s resolve snake kw f with
    | none => rw [hmf] at h; cases h
    | some x =>
      rw [hmf] at h
      cases hgo : map_fields_go fuel s resolve snake kw t with
      | none => rw [hgo] at h; cases h
      | some xs =>
        rw [hgo] at h
        simp only [Option.map_some', Option.some.injEq] at h
        subst h
        obtain ⟨e, p, a⟩ := x
        obtain ⟨h1, h2, h3, h4, h5⟩ := map_field_parts fuel s resolve snake kw f e p a hmf
        obtain ⟨ih1, ih2, ih3, ih4⟩ := ih xs hgo
        refine ⟨?_, ?_, ?_, ?_⟩
        · simp [h1, ih1]
        · simp [h2, ih2]
        · cases hopt : f.type_.isOptionalB with
          | true =>
            rw [hopt] at h2 h4
            simp only [if_true] at h4
            subst h4
            simp only [List.filterMap_cons, List.map_cons, List.filter_cons, h2,
              Bool.not_true, Bool.false_eq_true, if_false]
            exact ih3
          | false =>
            rw [hopt] at h2 h4
            simp only [Bool.false_eq_true, if_false] at h4
            subst h4
            simp only [List.filterMap_cons, List.map_cons, List.filter_cons, h2,
              Bool.not_false, if_true]
            rw [ih3]
        · cases hopt : f.type_.isOptionalB with
          | true =>
            rw [hopt] at h2 h5
            simp only [if_true] at h5
            subst h5
            simp only [List.map_cons, h2, if_true]
            rw [ih4]
          | false =>
            rw [hopt] at h2 h5
            simp only [Bool.false_eq_true, if_false] at h5
            subst h5
            simp only [List.map_cons, h2, Bool.false_eq_true, if_false]
            rw [ih4]

/-- C6: `GqlInput::to_rust` emits the fields sorted by (original) field name
under the ordinal order, the constructor parameters are exactly the
non-optional emitted fields in that same order, every optional field is
assigned the absent default in the constructor body and every other field is
assigned its parameter — and the entire output is invariant under
permutations of the stored field list (declaration / hash-map order). -/
theorem to_rust_sorted_constructor (fuel : Nat) (s : Schema)
    (resolve snake : String → String) (kw : List String) (inp : GqlInput)
    (out : ToRustOut)
    (h : GqlInput.to_rust fuel s resolve snake kw inp = some out)
    (hnd : (inp.fields.map (fun f => f.name)).Nodup) :
    (sortFields inp.fields).Pairwise fieldLe ∧
    (sortFields inp.fields).Perm inp.fields ∧
    out.fields.map (fun e => e.name)
      = (sortFields inp.fields).map (fun f => keyword_replace kw (snake f.name)) ∧
    out.fields.map (fun e => e.skip_serde)
      = (sortFields inp.fields).map (fun f => f.type_.isOptionalB) ∧
    out.required_fields
      = (out.fields.filter (fun e => !e.skip_serde)).map (fun e => (e.name, e.ty)) ∧
    out.struct_field_assignments
      = out.fields.map (fun e => (e.name, if e.skip_serde then AssignVal.noneDefault
          else AssignVal.var e.name)) ∧
    (∀ fields', fields'.Perm inp.fields →
      GqlInput.to_rust fuel s resolve snake kw
        ⟨inp.description, inp.name, fields'⟩ = some out) := by
  simp only [GqlInput.to_rust] at h
  cases hgo : map_fields_go fuel s resolve snake kw (sortFields inp.fields) with
  | none => rw [hgo] at h; cases h
  | some items =>
    rw [hgo] at h
    simp only [Option.map_some', Option.some.injEq] at h
    subst h
    obtain ⟨g1, g2, g3, g4⟩ := map_fields_go_spec fuel s resolve snake kw _ items hgo
    refine ⟨sortFields_sorted _, sortFields_perm _, ?_, ?_, ?_, ?_, ?_⟩
    · simpa using g1
    · simpa using g2
    · simpa using g3
    · simpa using g4
    · intro fields' hperm
      have hnd' : (fields'.map (fun f => f.name)).Nodup :=
        ((hperm.map (fun f => f.name)).nodup_iff).mpr hnd
      have hsort : sortFields fields' = sortFields inp.fields :=
        sortFields_perm_invariant fields' inp.fields hperm hnd'
      simp only [GqlInput.to_rust, hsort, hgo, Option.map_some']

/-- Constructor-order sample: the expected `to_rust` output for the source
test's `Cat` input object. -/
def catPaws : GqlObjectField := ⟨none, "pawsCount", .named "Float", .current⟩

/-- Field `offsprings: [Cat]` of the `Cat` sample. -/
def catOff : GqlObjectField := ⟨none, "offsprings", .vector (.named "Cat"), .current⟩

/-- Field `requirements: CatRequirements` (optional) of the `Cat` sample. -/
def catReq : GqlObjectField :=
  ⟨none, "requirements", .optional (.named "CatRequirements"), .current⟩

/-- The `Cat` input object of the source's own `gql_input_to_rust` test. -/
def catInput : GqlInput := ⟨none, "Cat", [catPaws, catOff, catReq]⟩

/-- Schema holding the `Cat` input object. -/
def catSchema : Schema := { inputs := [catInput] }

/-- Snake-case conversion restricted to the names of the `Cat` sample. -/
def snake0 : String → String := fun n => if n = "pawsCount" then "paws_count" else n

/-- Expected structured emission for `Cat`, matching the source test's
expected token stream. -/
def catOut : ToRustOut :=
  { struct_name := "Cat"
    fields := [⟨none, false, "offsprings", .vec (.named "Cat")⟩,
      ⟨some "pawsCount", false, "paws_count", .named "Float"⟩,
      ⟨none, true, "requirements", .option (.named "CatRequirements")⟩]
    required_fields := [("offsprings", .vec (.named "Cat")),
      ("paws_count", .named "Float")]
    struct_field_assignments := [("offsprings", .var "offsprings"),
      ("paws_count", .var "paws_count"), ("requirements", .noneDefault)] }

/-- Witness for C6 on the source test's `Cat` input object. -/
theorem to_rust_sorted_constructor_witness :
    (sortFields catInput.fields).Pairwise fieldLe ∧
    (sortFields catInput.fields).Perm catInput.fields ∧
    catOut.fields.map (fun e => e.name)
      = (sortFields catInput.fields).map (fun f => keyword_replace [] (snake0 f.name)) ∧
    catOut.fields.map (fun e => e.skip_serde)
      = (sortFields catInput.fields).map (fun f => f.type_.isOptionalB) ∧
    catOut.required_fields
      = (catOut.fields.filter (fun e => !e.skip_serde)).map (fun e => (e.name, e.ty)) ∧
    catOut.struct_field_assignments
      = catOut.fields.map (fun e => (e.name, if e.skip_serde then AssignVal.noneDefault
          else AssignVal.var e.name)) ∧
    (∀ fields', fields'.Perm catInput.fields →
      GqlInput.to_rust 10 catSchema id snake0 []
        ⟨catInput.description, catInput.name, fields'⟩ = some catOut) :=
  to_rust_sorted_constructor 10 catSchema id snake0 [] catInput catOut
    (by decide) (by decide)

/-- C7: `Operation::expand_variables` returns no fields and no default-value
constructors for an operation with zero declared variables, and otherwise one
field per declared variable plus the per-variable default-value constructors,
which are present exactly for the variables declaring a literal default and
produce that variable's value from its literal default. -/
theorem expand_variables_spec (resolve snake : String → String) (kw : List String)
    (derives : List String) (op : Operation) :
    (op.variables' = [] →
      (op.expand_variables resolve snake kw derives).2.1 = [] ∧
      (op.expand_variables resolve snake kw derives).2.2 = []) ∧
    (op.variables' ≠ [] →
      (op.expand_variables resolve snake kw derives).2.1
          = op.variable_fields resolve snake kw ∧
      (op.expand_variables resolve snake kw derives).2.1.length
          = op.variables'.length ∧
      (op.expand_variables resolve snake kw derives).2.2
          = op.variables'.map (fun v => v.generate_default_value_constructor) ∧
      (∀ v ∈ op.variables',
        v.generate_default_value_constructor
          = v.default.map (fun d => ⟨v.name, d⟩))) := by
  constructor
  · intro hemp
    simp [Operation.expand_variables, hemp]
  · intro hne
    have hne' : op.variables'.isEmpty = false := by
      simpa [List.isEmpty_iff] using hne
    refine ⟨?_, ?_, ?_, ?_⟩
    · simp [Operation.expand_variables, hne']
    · simp [Operation.expand_variables, hne', Operation.variable_fields]
    · simp [Operation.expand_variables, hne']
    · intro v _
      rfl

/-- Variable `id: ID!` (no default) of the sample operation. -/
def sampleVarId : Variable := ⟨"id", .named "ID", none⟩

/-- Variable `limit: Int = 10` (optional, literal default) of the sample
operation. -/
def sampleVarLimit : Variable := ⟨"limit", .optional (.named "Int"), some "10"⟩

/-- Sample operation with variables `{id: ID!, limit: Int = 10}`. -/
def sampleOp : Operation := ⟨"GetThing", .query, [sampleVarId, sampleVarLimit], ⟨"sel"⟩⟩

/-- Witness for C7 on the sample operation with two variables. -/
theorem expand_variables_spec_witness :
    (sampleOp.expand_variables id snake0 [] ["Serialize"]).2.1
        = sampleOp.variable_fields id snake0 [] ∧
    (sampleOp.expand_variables id snake0 [] ["Serialize"]).2.1.length
        = sampleOp.variables'.length ∧
    (sampleOp.expand_variables id snake0 [] ["Serialize"]).2.2
        = sampleOp.variables'.map (fun v => v.generate_default_value_constructor) ∧
    (∀ v ∈ sampleOp.variables',
      v.generate_default_value_constructor
        = v.default.map (fun d => ⟨v.name, d⟩)) :=
  (expand_variables_spec id snake0 [] ["Serialize"] sampleOp).2 (by decide)

/-- C8: every emitted input-object field and operation-variable field is named
by the keyword-safe snake-case conversion of its source name, and carries the
serialization rename directive with the original wire name exactly when the
converted name differs from the source name. -/
theorem field_naming_rename (resolve snake : String → String) (kw : List String) :
    (∀ (fuel : Nat) (s : Schema) (f : GqlObjectField) e p a,
      map_field fuel s resolve snake kw f = some (e, p, a) →
      e.name = keyword_replace kw (snake f.name) ∧
      e.rename = (if keyword_replace kw (snake f.name) = f.name then none
        else some f.name)) ∧
    (∀ op : Operation,
      (op.variable_fields resolve snake kw).map (fun e => (e.name, e.rename))
        = op.variables'.map (fun v => (keyword_replace kw (snake v.name),
            if keyword_replace kw (snake v.name) = v.name then none
            else some v.name))) := by
  constructor
  · intro fuel s f e p a h
    obtain ⟨h1, _, h3, _, _⟩ := map_field_parts fuel s resolve snake kw f e p a h
    refine ⟨h1, ?_⟩
    rw [h3]
    by_cases heq : keyword_replace kw (snake f.name) = f.name
    · simp [field_rename_directive, heq]
    · have hne : f.name ≠ keyword_replace kw (snake f.name) := fun hc => heq hc.symm
      simp [field_rename_directive, heq, hne]
  · intro op
    simp only [Operation.variable_fields, List.map_map]
    refine List.map_congr_left ?_
    intro v _
    simp only [Function.comp]
    by_cases heq : keyword_replace kw (snake v.name) = v.name
    · simp [field_rename_directive, heq]
    · have hne : v.name ≠ keyword_replace kw (snake v.name) := fun hc => heq hc.symm
      simp [field_rename_directive, heq, hne]

/-- Witness for C8: the `pawsCount` field is renamed to `paws_count` and
carries the rename directive with the original wire name. -/
theorem field_naming_rename_witness :
    (⟨some "pawsCount", false, "paws_count", RustType.named "Float"⟩
        : EmittedField).name = keyword_replace [] (snake0 catPaws.name) ∧
    (⟨some "pawsCount", false, "paws_count", RustType.named "Float"⟩
        : EmittedField).rename
      = (if keyword_replace [] (snake0 catPaws.name) = catPaws.name then none
         else some catPaws.name) :=
  (field_naming_rename id snake0 []).1 10 catSchema catPaws
    ⟨some "pawsCount", false, "paws_count", RustType.named "Float"⟩
    (some ("paws_count", RustType.named "Float"))
    ("paws_count", AssignVal.var "paws_count") (by decide)

/-- C9 counterexample: an unnamed (anonymous) query — a value of the query
form — does not construct an `Operation`: the source panics with
`unnamed operation`, so construction does not succeed for every value of the
query form. -/
theorem operation_from_unnamed_counterexample :
    operation_from (.query none [] ⟨"q"⟩) = .error "unnamed operation" := rfl

/-- C9 amended: constructing an `Operation` succeeds for exactly the *named*
query, mutation and subscription forms, mapping each keyword to the
corresponding operation kind; an unnamed operation is a fatal error
(`unnamed operation`), and a bare selection set at the document root is the
fatal error `SELECTION_SET_AT_ROOT`. -/
theorem operation_from_spec :
    (∀ (name : Option String) (vars : List Variable) (sel : Selection),
      operation_from (.query name vars sel)
        = (match name with
           | some n => .ok ⟨n, .query, vars, sel⟩
           | none => .error "unnamed operation")) ∧
    (∀ (name : Option String) (vars : List Variable) (sel : Selection),
      operation_from (.mutation name vars sel)
        = (match name with
           | some n => .ok ⟨n, .mutation, vars, sel⟩
           | none => .error "unnamed operation")) ∧
    (∀ (name : Option String) (vars : List Variable) (sel : Selection),
      operation_from (.subscription name vars sel)
        = (match name with
           | some n => .ok ⟨n, .subscription, vars, sel⟩
           | none => .error "unnamed operation")) ∧
    (∀ sel : Selection,
      operation_from (.selectionSet sel) = .error SELECTION_SET_AT_ROOT) := by
  refine ⟨?_, ?_, ?_, ?_⟩
  · intro name vars sel; cases name <;> rfl
  · intro name vars sel; cases name <;> rfl
  · intro name vars sel; cases name <;> rfl
  · intro sel; rfl

/-- Projection of an emission unit onto everything outside the integration
surface: header data, the two literal constants, the include hook, the
delegated response items and the distinct variables field sets. -/
structure UnitCore where
  module_visibility : String
  module_name : String
  operation_name_const : String
  query_const : String
  query_include : Option String
  responseItems : List ModuleItem
  variablesFieldSets : List (List EmittedField)
deriving DecidableEq, Repr

/-- The integration-surface-free core of an emission unit. -/
def EmissionUnit.core (u : EmissionUnit) : UnitCore :=
  ⟨u.module_visibility, u.module_name, u.operation_name_const, u.query_const,
    u.query_include, u.responseItems, u.variablesFieldLists.dedup⟩

theorem expand_fields_eq (resolve snake : String → String) (kw derives : List String)
    (op : Operation) :
    (op.expand_variables resolve snake kw derives).2.1
      = op.variable_fields resolve snake kw := by
  cases hv : op.variables' with
  | nil => simp [Operation.expand_variables, Operation.variable_fields, hv]
  | cons a t => simp [Operation.expand_variables, Operation.variable_fields, hv]

/-- C5: one operation emitted in standalone (`Cli`) mode and in embedded
(`Derive`) mode produces the same integration-free core — identical query
text constant, operation name, module header, delegated response items and
variables field sets — and the two units differ exactly by the integration
surface: the `Cli` unit appends the operation-named variables struct and the
`GraphQLQueryCLI` impl to the module items, the `Derive` unit instead carries
the external `GraphQLQuery` impl. -/
theorem mode_equivalence (resolve snake camel : String → String) (kw : List String)
    (op : Operation) (query_string document : String)
    (opts : GraphQLClientCodegenOptions) :
    (GeneratedModule.to_token_stream resolve snake camel kw op query_string document
        { opts with mode := .cli }).core
      = (GeneratedModule.to_token_stream resolve snake camel kw op query_string document
          { opts with mode := .derive }).core ∧
    (GeneratedModule.to_token_stream resolve snake camel kw op query_string document
        { opts with mode := .cli }).items
      = (GeneratedModule.to_token_stream resolve snake camel kw op query_string document
          { opts with mode := .derive }).items
        ++ [ModuleItem.variablesStruct (camel op.name)
              (op.expand_variables resolve snake kw opts.input_derives).1
              (op.expand_variables resolve snake kw opts.input_derives).2.1,
            ModuleItem.cliQueryImpl (camel op.name)] ∧
    (GeneratedModule.to_token_stream resolve snake camel kw op query_string document
        { opts with mode := .cli }).build_query_impl = none ∧
    (GeneratedModule.to_token_stream resolve snake camel kw op query_string document
        { opts with mode := .derive }).build_query_impl
      = some ⟨camel op.name, op.variables'.length = 0, snake op.name⟩ := by
  have hfe := expand_fields_eq resolve snake kw opts.input_derives op
  refine ⟨?_, ?_, ?_, ?_⟩
  · simp [GeneratedModule.to_token_stream, EmissionUnit.core,
      EmissionUnit.responseItems, EmissionUnit.variablesFieldLists,
      response_for_query, hfe, List.filter_append, List.filterMap_append,
      List.dedup_cons_of_mem]
  · simp [GeneratedModule.to_token_stream, response_for_query]
  · simp [GeneratedModule.to_token_stream]
  · simp [GeneratedModule.to_token_stream]
